import Mathlib

/-!
Shallow embedding of the rx-player streaming buffer core: the source-buffer
garbage collector and segment scheduler (`Buffer`), the clock / seek observer
(`seekingsSampler`, `createTimingsAndSeekingsObservables`), the segment
timeline index (`timeline.js`) and the ABR manager (`abr/index.js`).

Times and durations are JavaScript numbers in the source; they are embedded
as rationals (`ℚ`), with an explicit `XQ` type (`ℚ` extended with `+∞`) where
the source manipulates `Infinity`.  Fallible array accesses become `Option`.
Mutation of the timeline / manager state becomes explicit state passing.
-/

namespace RxPlayer

/-- A JavaScript number that may be `Infinity`: a rational or `+∞`.
(`NaN` and `-Infinity` never arise on the paths embedded here.) -/
inductive XQ where
  | fin (q : ℚ)
  | inf
deriving DecidableEq

namespace XQ

/-- `a < b` on `ℚ ∪ {+∞}`. -/
def lt : XQ → XQ → Bool
  | inf, _ => false
  | fin _, inf => true
  | fin a, fin b => decide (a < b)

/-- `Math.min` on `ℚ ∪ {+∞}`. -/
def min : XQ → XQ → XQ
  | inf, b => b
  | a, inf => a
  | fin a, fin b => fin (Min.min a b)

/-- `Math.max` on `ℚ ∪ {+∞}`. -/
def max : XQ → XQ → XQ
  | inf, _ => inf
  | _, inf => inf
  | fin a, fin b => fin (Max.max a b)

/-- Subtraction of a finite rational from an extended rational
(`Infinity - x = Infinity` in JavaScript). -/
def subQ : XQ → ℚ → XQ
  | inf, _ => inf
  | fin a, b => fin (a - b)

end XQ

/-! ## Buffered ranges (spec §4.1)

The `BufferedRanges` class lives in `./ranges`, which is not part of the
source slice; the accessors the garbage collector uses are modelled from the
spec. -/

/-- A buffered range `[start, stop)` in seconds, tagged with the bitrate at
which its data was loaded (`end` is a Lean keyword, hence `stop`). -/
structure BRange where
  start : ℚ
  stop : ℚ
  bitrate : ℚ
deriving DecidableEq

/-- Modelled from the spec: `getRange(t) → Option<Interval>`, the interval of
the buffered-range map containing `t`.  Ranges are half-open `[start, stop)`
per the spec's data model (§3, §4.1). -/
def getRange (buffered : List BRange) (t : ℚ) : Option BRange :=
  buffered.find? (fun r => decide (r.start ≤ t) && decide (t < r.stop))

/-- Modelled from the spec: `getOuterRanges(t) → List<Interval>`, the
intervals of the buffered-range map not containing `t`. -/
def getOuterRanges (buffered : List BRange) (t : ℚ) : List BRange :=
  buffered.filter (fun r => !(decide (r.start ≤ t) && decide (t < r.stop)))

/-! ## Garbage collector (`Buffer`, `selectGCedRanges`) -/

/-- `GC_GAP_CALM` (seconds). -/
def GC_GAP_CALM : ℚ := 240

/-- `GC_GAP_BEEFY` (seconds). -/
def GC_GAP_BEEFY : ℚ := 30

/-- The test the source applies to each outer range before pushing it onto
`cleanedupRanges`:
`if (ts - gcGap < outerRange.end) push; else if (ts + gcGap > outerRange.start) push`. -/
def gcOuterTest (ts gcGap : ℚ) (outerRange : BRange) : Bool :=
  if ts - gcGap < outerRange.stop then true
  else if ts + gcGap > outerRange.start then true
  else false

/-- `selectGCedRanges({ts, buffered}, gcGap)`: the list of `(start, end)`
intervals the buffer garbage collector schedules for removal, given the
current position `ts` and the buffered-range map. -/
def selectGCedRanges (ts : ℚ) (buffered : List BRange) (gcGap : ℚ) :
    List (ℚ × ℚ) :=
  let innerRange := getRange buffered ts
  let outerRanges := getOuterRanges buffered ts
  let cleanedupRanges :=
    (outerRanges.filter (gcOuterTest ts gcGap)).map (fun r => (r.start, r.stop))
  cleanedupRanges ++
    match innerRange with
    | none => []
    | some innerRange =>
        (if ts - gcGap > innerRange.start then [(innerRange.start, ts - gcGap)]
         else []) ++
        (if ts + gcGap < innerRange.stop then [(ts + gcGap, innerRange.stop)]
         else [])

/-! ## Append with garbage collection and retry (`segmentsPipeline`)

The `.concatMap` stage of `segmentsPipeline` appends a parsed blob with
`lockedAppendBuffer(blob).catch(err => { if (err.name == "QuotaExceededError")
return bufferGarbageCollector().flatMap(() => lockedAppendBuffer(blob));
else throw err; })`.  The sink is modelled by the outcomes of its successive
`appendBuffer` calls; the value returned is the final outcome together with
how many appends were issued and whether the garbage collector ran. -/

/-- An error event coming back from the media sink. -/
structure SinkError where
  name : String
deriving DecidableEq

/-- Outcome of a single locked append to the media sink. -/
inductive AppendResult where
  | ok
  | err (e : SinkError)
deriving DecidableEq

/-- The append + catch + GC-retry chain of `segmentsPipeline`, given the
outcome `attempt1` of the first `lockedAppendBuffer` and the outcome
`attempt2` the sink would produce for a second append.  Returns
(final outcome, number of appends issued, whether the GC ran). -/
def lockedAppendWithGCRetry (attempt1 attempt2 : AppendResult) :
    AppendResult × ℕ × Bool :=
  match attempt1 with
  | .ok => (.ok, 1, false)
  | .err e =>
      if e.name = "QuotaExceededError" then (attempt2, 2, true)
      else (.err e, 1, false)

/-! ## Injection window (`getSegmentsListToInject`, lines 190–197)

```
var endDiff = (timing.duration || Infinity) - timestamp;
var wantedBufferSize = Math.max(0, Math.min(bufferSize, timing.liveGap, endDiff));
```
`timing.duration` may be absent (`none`); JavaScript's `||` also replaces a
zero duration by `Infinity`. -/

/-- `endDiff` as the source computes it. -/
def endDiff (duration : Option ℚ) (timestamp : ℚ) : XQ :=
  (match duration with
   | none => XQ.inf
   | some d => if d = 0 then XQ.inf else XQ.fin d).subQ timestamp

/-- `wantedBufferSize` as the source computes it from the requested buffer
size, the tick's `liveGap` and `endDiff`. -/
def wantedBufferSize (bufferSize : ℚ) (liveGap : XQ) (duration : Option ℚ)
    (timestamp : ℚ) : XQ :=
  XQ.max (XQ.fin 0)
    (XQ.min (XQ.fin bufferSize) (XQ.min liveGap (endDiff duration timestamp)))

/-! ## Clock and seek observer (`seekingsSampler`)

A finite run of the timings observable is a list of ticks; the rx pipeline
`filter(...).skip(1).startWith(true)` becomes the corresponding list
transformation.  The synthetic `startWith(true)` seed is modelled as `none`,
the ticks the filter lets through as `some tick`. -/

/-- `SEEK_GAP` (seconds). -/
def SEEK_GAP : ℚ := 2

/-- The fields of a raw timing tick that `seekingsSampler` inspects. -/
structure ClockTick where
  state : String
  bufferGap : XQ
deriving DecidableEq

/-- The filter predicate of `seekingsSampler`: `state == "seeking"` and
`bufferGap === Infinity || bufferGap < -SEEK_GAP`. -/
def seekQualifies (timing : ClockTick) : Bool :=
  timing.state == "seeking" &&
    (timing.bufferGap == XQ.inf || timing.bufferGap.lt (XQ.fin (-SEEK_GAP)))

/-- `seekingsSampler(timingsSampling)` over a finite tick list:
`filter(...)` then `skip(1)` then `startWith(true)`. -/
def seekingsSampler (timingsSampling : List ClockTick) : List (Option ClockTick) :=
  none :: (((timingsSampling.filter seekQualifies).drop 1).map some)

/-! ## Timings augmentation (`createTimingsAndSeekingsObservables`)

The same file holds a JavaScript and a TypeScript version of the map that
adds `liveGap` to each tick.  Ticks are dynamic objects there, so they are
embedded as association lists of (property name, value); `objectAssign`
copies own properties left to right, an assignment `o.k = v` overwrites in
place or appends. -/

/-- A JavaScript property value as used by the timing objects. -/
inductive JSVal where
  | num (q : ℚ)
  | infin
  | str (s : String)
  | boolean (b : Bool)
deriving DecidableEq

/-- A JavaScript object: an association list of own properties. -/
abbrev JSObj : Type := List (String × JSVal)

/-- Property read `o[k]`. -/
def getProp : JSObj → String → Option JSVal
  | [], _ => none
  | (k', v) :: rest, k => if k' = k then some v else getProp rest k

/-- Property write `o[k] = v`: overwrite in place, else append. -/
def setProp : JSObj → String → JSVal → JSObj
  | [], k, v => [(k, v)]
  | (k', v') :: rest, k, v =>
      if k' = k then (k, v) :: rest else (k', v') :: setProp rest k v

/-- `objectAssign(target, source)`: copy each own property of `source` onto
`target`, in order. -/
def objectAssign (target : JSObj) : JSObj → JSObj
  | [] => target
  | (k, v) :: rest => objectAssign (setProp target k v) rest

/-- Modelled from the spec: the manifest as the augmentation step sees it —
`isLive` plus the value of `getMaximumBufferPosition(manifest)` (the function
lives in `manifest/timings.js`, outside the source slice). -/
structure Manifest where
  isLive : Bool
  maximumBufferPosition : ℚ

/-- `timing.currentTime` read as a number. -/
def numProp (o : JSObj) (k : String) : ℚ :=
  match getProp o k with
  | some (.num q) => q
  | _ => 0

/-- The `liveGap` value both versions compute:
`manifest.isLive ? getMaximumBufferPosition(manifest) - timing.currentTime : Infinity`. -/
def liveGapValue (manifest : Manifest) (timing : JSObj) : JSVal :=
  if manifest.isLive then
    .num (manifest.maximumBufferPosition - numProp timing "currentTime")
  else .infin

/-- The JavaScript version of the augmentation inside
`createTimingsAndSeekingsObservables`:
`const clonedTiming = objectAssign({}, timing); clonedTiming.liveGap = ...`. -/
def augmentTimingJS (manifest : Manifest) (timing : JSObj) : JSObj :=
  let clonedTiming := objectAssign [] timing
  setProp clonedTiming "liveGap" (liveGapValue manifest timing)

/-- The TypeScript version of the augmentation:
`objectAssign({ liveGap: ... }, timing)`. -/
def augmentTimingTS (manifest : Manifest) (timing : JSObj) : JSObj :=
  objectAssign [("liveGap", liveGapValue manifest timing)] timing

/-! ## Segment timeline index (`manifest/indexes/timeline.js`)

A template-with-timeline index: an ordered list of entries `{ts, d, r}` in
timescale ticks.  Per the data model (spec §3) the repetition count `r` is
normalized to be ≥ 0 at insertion, so entries carry `r : ℕ`; `d` may be `-1`
("live, extends to next update") and so stays in `ℚ`. -/

/-- A timeline entry `{ ts, d, r }`. -/
structure TLEntry where
  ts : ℚ
  d : ℚ
  r : ℕ
deriving DecidableEq

/-- The template-with-timeline index record (the fields the embedded
operations read). -/
structure TLIndex where
  timeline : List TLEntry
  timescale : ℚ
  presentationTimeOffset : ℚ
  startNumber : Option ℤ
deriving DecidableEq

/-- Modelled from the spec: `getTimelineRangeEnd` from `indexes/helpers.js`
(not in the source slice).  Per the data-model invariant (§3) the repeated
instances of one entry occupy `[ts + k·d, ts + (k+1)·d)` for `k ∈ [0, r]`, so
the entry's range ends at `ts + (r+1)·d`. -/
def getTimelineRangeEnd (seg : TLEntry) : ℚ :=
  seg.ts + (seg.r + 1) * seg.d

/-- Modelled from the spec: `normalizeRange` from `indexes/helpers.js` (not in
the source slice).  §4.3: "`up, to` are converted to ticks via `timescale` and
`presentationTimeOffset` (subtracted)". -/
def normalizeRange (index : TLIndex) (_up _to : ℚ) : ℚ × ℚ :=
  (_up * index.timescale - index.presentationTimeOffset,
   _to * index.timescale - index.presentationTimeOffset)

/-- The binary-search loop of `getSegmentIndex`:
`while (low < high) { mid = (low + high) >>> 1; if (timeline[mid].ts < ts)
low = mid + 1; else high = mid; }`.  The loop always terminates within
`length + 1` rounds, supplied as fuel. -/
def bsearchGo (arr : List ℚ) (target : ℚ) : ℕ → ℕ → ℕ → ℕ
  | 0, low, _ => low
  | fuel + 1, low, high =>
    if low < high then
      let mid := (low + high) / 2
      if arr.getD mid 0 < target then bsearchGo arr target fuel (mid + 1) high
      else bsearchGo arr target fuel low mid
    else low

/-- `getSegmentIndex(index, ts)`: index of the timeline entry found for the
timescaled timestamp `ts` (`low > 0 ? low - 1 : low`). -/
def getSegmentIndex (index : TLIndex) (ts : ℚ) : ℕ :=
  let timeline := index.timeline
  let low := bsearchGo (timeline.map TLEntry.ts) ts (timeline.length + 1) 0
    timeline.length
  if low > 0 then low - 1 else low

/-- `getSegmentNumber(up, ts, duration)`: how many repetitions to skip to
reach the wanted time.  (`Math.floor` of a rational; for `duration = 0`
JavaScript would produce `Infinity` — such entries are outside the wellformed
timelines quantified over below.) -/
def getSegmentNumber (up ts duration : ℚ) : ℤ :=
  let diff := up - ts
  if diff > 0 then ⌊diff / duration⌋ else 0

/-- `getRepeat(seg, nextSeg)`: the repetition count.  The source branch for a
negative `@r` is unreachable in this embedding: the data model (spec §3)
normalizes `r` to ≥ 0 at insertion, so entries carry `r : ℕ`. -/
def getRepeat (seg : TLEntry) : ℕ := seg.r

/-- A segment reference as built by `getSegments`.  The source id string
`"" + repId + "_" + segmentTime` is embedded as the injective pair
`(repId, segmentTime)`. -/
structure Seg where
  id : String × ℚ
  time : ℚ
  init : Bool
  duration : Option ℚ
  number : ℤ
  timescale : ℚ
deriving DecidableEq

/-- The inner `while` loop of `getSegments`:
`while ((segmentTime = ts + segmentNumber * d) < to) { if (segmentNumber++ <=
repeat) { number++; push } else continue loop; }`.  Returns the pushed
segments, the final `number`, and whether the loop fell through to the next
entry (`continue loop`, `true`) or broke out of the whole scan (`false`).
Entered with `segmentNumber ≤ rep`, so `rep + 2` rounds of fuel always
suffice. -/
def emitSegs (repId : String) (timescale ts d : ℚ) (rep : ℕ) (toT : ℚ) :
    ℕ → ℤ → ℤ → List Seg × ℤ × Bool
  | 0, _, number => ([], number, true)
  | fuel + 1, segmentNumber, number =>
    let segmentTime := ts + segmentNumber * d
    if segmentTime < toT then
      if segmentNumber ≤ (rep : ℤ) then
        let s : Seg := { id := (repId, segmentTime), time := segmentTime,
                         init := false, duration := some d,
                         number := number + 1, timescale := timescale }
        let res := emitSegs repId timescale ts d rep toT fuel
          (segmentNumber + 1) (number + 1)
        (s :: res.1, res.2)
      else ([], number, true)
    else ([], number, false)

/-- The labelled outer loop of `getSegments`, iterating over the timeline
entries from the start index onward, threading the running `maxDuration` and
segment `number`. -/
def segLoop (repId : String) (timescale up toT : ℚ) :
    List TLEntry → ℚ → ℤ → List Seg
  | [], _, _ => []
  | segmentRange :: rest, maxDuration0, number0 =>
    let number := number0 + 1
    let maxDuration := max maxDuration0 segmentRange.d
    if segmentRange.d < 0 then
      -- live-added segments have @d attribute equal to -1
      if segmentRange.ts + maxDuration < toT then
        [{ id := (repId, segmentRange.ts), time := segmentRange.ts,
           init := false, duration := none, number := number,
           timescale := timescale }]
      else []
    else
      let rep := getRepeat segmentRange
      let segmentNumber := getSegmentNumber up segmentRange.ts segmentRange.d
      if segmentNumber > (rep : ℤ) then
        -- out of the current segment range: skip _rep_ segments
        segLoop repId timescale up toT rest maxDuration (number + rep)
      else
        let out := emitSegs repId timescale segmentRange.ts segmentRange.d rep
          toT (rep + 2) segmentNumber number
        if out.2.2 then
          segLoop repId timescale up toT rest maxDuration out.2.1 |> (out.1 ++ ·)
        else out.1

/-- `getSegments(repId, index, _up, _to)`: the segment references the index
resolves for the wanted time range. -/
def getSegments (repId : String) (index : TLIndex) (_up _to : ℚ) : List Seg :=
  let (up, toT) := normalizeRange index _up _to
  let timeline := index.timeline
  let timelineIndex := getSegmentIndex index up
  let maxDuration : ℚ := match timeline with | [] => 0 | e :: _ => e.d
  let number : ℤ := (match index.startNumber with | none => 0 | some n => n) - 1
  segLoop repId index.timescale up toT (timeline.drop timelineIndex) maxDuration
    number

/-- `checkDiscontinuity(index, _time)`: the start (in seconds) of the next
entry when `_time` sits in a discontinuity, `-1` otherwise. -/
def checkDiscontinuity (index : TLIndex) (_time : ℚ) : ℚ :=
  let timeline := index.timeline
  let timescale := index.timescale
  let time := _time * timescale
  if time ≤ 0 then -1
  else
    let segmentIndex := getSegmentIndex index time
    if segmentIndex ≥ timeline.length - 1 then -1
    else
      match timeline.get? segmentIndex, timeline.get? (segmentIndex + 1) with
      | some range, some nextRange =>
        if range.d = -1 then -1
        else
          let rangeUp := range.ts
          let rangeTo := getTimelineRangeEnd range
          if rangeTo ≠ nextRange.ts ∧ time ≥ rangeUp ∧ time ≤ rangeTo ∧
              rangeTo - time < timescale then
            nextRange.ts / timescale
          else -1
      | _, _ => -1

/-- The `newSegment` argument of `_addSegmentInfos`. -/
structure NewSegment where
  time : ℚ
  duration : ℚ
  timescale : ℚ
deriving DecidableEq

/-- The `currentSegment` argument of `_addSegmentInfos`. -/
structure CurrentSegment where
  time : ℚ
  timescale : ℚ
deriving DecidableEq

/-- The `scaledNewSegment` computation of `_addSegmentInfos`. -/
def scaledNewSegment (index : TLIndex) (newSegment : NewSegment) : ℚ × ℚ :=
  if newSegment.timescale = index.timescale then
    (newSegment.time, newSegment.duration)
  else
    (newSegment.time / newSegment.timescale * index.timescale,
     newSegment.duration / newSegment.timescale * index.timescale)

/-- The `scaledCurrentTime` computation of `_addSegmentInfos`. -/
def scaledCurrentTime (index : TLIndex) (currentSegment : Option CurrentSegment) :
    Option ℚ :=
  currentSegment.map (fun c =>
    if c.timescale = index.timescale then c.time
    else c.time / c.timescale * index.timescale)

/-- The `shouldDeductNextSegment` test of `_addSegmentInfos`:
`scaledCurrentTime != null && (scaledNewSegment.time === scaledCurrentTime)`. -/
def shouldDeductNextSegment (index : TLIndex) (newSegment : NewSegment)
    (currentSegment : Option CurrentSegment) : Bool :=
  match scaledCurrentTime index currentSegment with
  | none => false
  | some c => decide ((scaledNewSegment index newSegment).1 = c)

/-- `_addSegmentInfos(index, newSegment, currentSegment)`: add a segment to
the timeline.  The source mutates `index.timeline`; here the new timeline is
returned next to the boolean result.  The source dereferences
`timeline[timelineLength - 1]`, so the empty timeline is outside its domain
(`none`). -/
def _addSegmentInfos (index : TLIndex) (newSegment : NewSegment)
    (currentSegment : Option CurrentSegment) : Option (Bool × List TLEntry) :=
  let timeline := index.timeline
  match timeline.getLast? with
  | none => none
  | some last =>
    let scaledNewSegment := scaledNewSegment index newSegment
    if shouldDeductNextSegment index newSegment currentSegment then
      let newSegmentTs := scaledNewSegment.1 + scaledNewSegment.2
      let lastSegmentTs := last.ts + last.d * last.r
      let tsDiff := newSegmentTs - lastSegmentTs
      if tsDiff ≤ 0 then some (false, timeline)
      else
        let timeline1 :=
          if last.d = -1 then
            match timeline.dropLast.getLast? with
            | some prev =>
                if prev.d = tsDiff then
                  -- prev.r++; timeline.pop()
                  timeline.dropLast.dropLast ++ [{ prev with r := prev.r + 1 }]
                else timeline.dropLast ++ [{ last with d := tsDiff }]
            | none => timeline.dropLast ++ [{ last with d := tsDiff }]
          else timeline
        some (true, timeline1 ++ [{ ts := newSegmentTs, d := -1, r := 0 }])
    else if scaledNewSegment.1 ≥ getTimelineRangeEnd last then
      if last.d = scaledNewSegment.2 then
        some (true, timeline.dropLast ++ [{ last with r := last.r + 1 }])
      else
        some (true, timeline ++
          [{ ts := scaledNewSegment.1, d := scaledNewSegment.2, r := 0 }])
    else some (false, timeline)

/-! ## ABR manager (`core/abr/index.js`)

The manager keeps one lazily created `RepresentationChooser` per media type.
Of a chooser only the `BehaviorSubject` values the bitrate setters and
getters touch are modelled (`manualBitrate$`, `maxAutoBitrate$`); of the
manager, the chooser table and the `_chooserInstanceOptions` maps. -/

/-- The closed set of media types. -/
inductive MediaType where
  | audio
  | video
  | text
  | image
deriving DecidableEq

/-- The chooser state the bitrate setters and getters reach: the current
values of the `manualBitrate$` and `maxAutoBitrate$` behavior subjects. -/
structure ChooserState where
  manualBitrate : ℚ
  maxAutoBitrate : ℚ
deriving DecidableEq

/-- The ABR manager state: the per-type chooser table `_choosers` and the
`_chooserInstanceOptions` maps (absent keys are `none`). -/
structure ABRState where
  choosers : MediaType → Option ChooserState
  optInitialBitrates : MediaType → Option ℚ
  optManualBitrates : MediaType → Option ℚ
  optMaxAutoBitrates : MediaType → Option ℚ

/-- Point update of a per-type table. -/
def updTable {α : Type} (f : MediaType → α) (t : MediaType) (v : α) :
    MediaType → α :=
  fun t' => if t' = t then v else f t'

/-- `setManualBitrate(type, bitrate)`: without a chooser the source stores the
bitrate under `_chooserInstanceOptions.initialBitrates[type]`; with one it
pushes onto `manualBitrate$`. -/
def setManualBitrate (s : ABRState) (type : MediaType) (bitrate : ℚ) :
    ABRState :=
  match s.choosers type with
  | none =>
      { s with optInitialBitrates := (updTable s.optInitialBitrates type (some bitrate)) }
  | some chooser =>
      { s with choosers := (updTable s.choosers type (some { chooser with manualBitrate := bitrate })) }

/-- `setMaxAutoBitrate(type, bitrate)`. -/
def setMaxAutoBitrate (s : ABRState) (type : MediaType) (bitrate : ℚ) :
    ABRState :=
  match s.choosers type with
  | none =>
      { s with optMaxAutoBitrates := (updTable s.optMaxAutoBitrates type (some bitrate)) }
  | some chooser =>
      { s with choosers := (updTable s.choosers type (some { chooser with maxAutoBitrate := bitrate })) }

/-- `getManualBitrate(type)`: the chooser's `manualBitrate$.getValue()`, or
`_chooserInstanceOptions.manualBitrates[type]` when no chooser exists. -/
def getManualBitrate (s : ABRState) (type : MediaType) : Option ℚ :=
  match s.choosers type with
  | some chooser => some chooser.manualBitrate
  | none => s.optManualBitrates type

/-- `getMaxAutoBitrate(type)`. -/
def getMaxAutoBitrate (s : ABRState) (type : MediaType) : Option ℚ :=
  match s.choosers type with
  | some chooser => some chooser.maxAutoBitrate
  | none => s.optMaxAutoBitrates type

/-! ## Wellformed timelines

The invariants of the data model (spec §3): strictly increasing `ts`, entries
non-overlapping (an entry's range ends no later than the next entry starts),
every entry but the last of positive duration, the last of positive duration
or open-ended (`d = -1`). -/

/-- Decidable wellformedness of a timeline. -/
def wfTimeline : List TLEntry → Bool
  | [] => true
  | [e] => decide (0 < e.d) || decide (e.d = -1)
  | e :: e' :: rest =>
      decide (0 < e.d) && decide (getTimelineRangeEnd e ≤ e'.ts) &&
        wfTimeline (e' :: rest)

/-- The maximum entry duration of a timeline (`-1` for the empty timeline,
below every duration). -/
def maxEntryDuration (timeline : List TLEntry) : ℚ :=
  timeline.foldr (fun e m => max e.d m) (-1)

/-! ## Theorems -/

/-- C1: the claimed behaviour — only outer ranges ending before `ts - gap` or
starting after `ts + gap` marked — does not hold: for any positive gap the
source's inverted comparisons make `selectGCedRanges` mark **every** outer
range for removal (the inner-range trimming behaves as claimed). -/
theorem selectGCedRanges_marks_every_outer (ts gcGap : ℚ)
    (buffered : List BRange) (hgap : 0 < gcGap)
    (hwf : ∀ r ∈ buffered, r.start ≤ r.stop) :
    ∀ r ∈ getOuterRanges buffered ts,
      (r.start, r.stop) ∈ selectGCedRanges ts buffered gcGap := by
  intro r hr
  have hrs : r.start ≤ r.stop := hwf r (List.mem_of_mem_filter hr)
  have htest : gcOuterTest ts gcGap r = true := by
    unfold gcOuterTest
    split
    · rfl
    · split
      · rfl
      · rename_i h1 h2
        exact absurd (by linarith : ts + gcGap > r.start) h2
  simp only [selectGCedRanges]
  exact List.mem_append_left _
    (List.mem_map.2 ⟨r, List.mem_filter.2 ⟨hr, htest⟩, rfl⟩)

/-- Witness for C1's theorem: at `ts = 1000`, `gcGap = GC_GAP_CALM = 240`, the
nearby outer range `[990, 995)` is selected for removal. -/
theorem selectGCedRanges_marks_every_outer_witness :
    (990, 995) ∈ selectGCedRanges 1000 [⟨990, 995, 1⟩] GC_GAP_CALM :=
  selectGCedRanges_marks_every_outer 1000 GC_GAP_CALM [⟨990, 995, 1⟩]
    (by norm_num [GC_GAP_CALM]) (by decide) ⟨990, 995, 1⟩ (by decide)

/-- C4 (counterexample): an error whose `name` is exactly `"QuotaExceeded"` —
the name the spec gives — is propagated without garbage collection or retry;
the source only recognizes `"QuotaExceededError"`. -/
theorem quotaRetry_spec_name_not_retried :
    lockedAppendWithGCRetry (.err ⟨"QuotaExceeded"⟩) .ok =
      (.err ⟨"QuotaExceeded"⟩, 1, false) := by
  decide

/-- C4 (amended): the scheduler garbage-collects and retries the append
exactly once if and only if the sink error's name equals
`"QuotaExceededError"`; any other sink error is propagated without retry, and
no operation ever issues more than two appends (a failed retry is not retried
again). -/
theorem quotaRetry_characterization (a1 a2 : AppendResult) :
    ((lockedAppendWithGCRetry a1 a2).2.1 = 2 ∧
        (lockedAppendWithGCRetry a1 a2).2.2 = true ↔
      ∃ e, a1 = .err e ∧ e.name = "QuotaExceededError") ∧
    (∀ e, a1 = .err e → e.name ≠ "QuotaExceededError" →
      lockedAppendWithGCRetry a1 a2 = (.err e, 1, false)) ∧
    (lockedAppendWithGCRetry a1 a2).2.1 ≤ 2 := by
  obtain _ | e := a1
  · simp [lockedAppendWithGCRetry]
  · by_cases h : e.name = "QuotaExceededError" <;>
      simp [lockedAppendWithGCRetry, h]

/-- Witness for C4's theorem: a `"DecodeError"` sink error is propagated
as-is, with a single append and no garbage collection. -/
theorem quotaRetry_characterization_witness :
    lockedAppendWithGCRetry (.err ⟨"DecodeError"⟩) .ok =
      (.err ⟨"DecodeError"⟩, 1, false) :=
  (quotaRetry_characterization (.err ⟨"DecodeError"⟩) .ok).2.1
    ⟨"DecodeError"⟩ rfl (by decide)

/-- C5 (counterexample): in deduction mode with timeline `[{ts 0, d 10, r 1}]`
(range end `20`) and deduced start tick `5 + 10 = 15 ≤ 20`, the source
returns `true` and appends — the claim demands `false` with the timeline
unchanged.  (The source compares against `last.ts + last.d·last.r = 10`, not
the range end.) -/
theorem addSegmentInfos_deduct_behind_cx :
    shouldDeductNextSegment ⟨[⟨0, 10, 1⟩], 1, 0, none⟩ ⟨5, 10, 1⟩
        (some ⟨5, 1⟩) = true ∧
    (5 + 10 : ℚ) ≤ getTimelineRangeEnd ⟨0, 10, 1⟩ ∧
    _addSegmentInfos ⟨[⟨0, 10, 1⟩], 1, 0, none⟩ ⟨5, 10, 1⟩ (some ⟨5, 1⟩) =
      some (true, [⟨0, 10, 1⟩, ⟨15, -1, 0⟩]) := by
  refine ⟨?_, by norm_num [getTimelineRangeEnd], ?_⟩ <;>
    norm_num [_addSegmentInfos, shouldDeductNextSegment, scaledCurrentTime,
      scaledNewSegment, getTimelineRangeEnd]

/-- C5 (amended): in deduction mode `_addSegmentInfos` returns `false` and
leaves the timeline unchanged whenever the deduced start tick is at most
`last.ts + last.d·last.r` — the start of the final repetition of the last
entry, not its range end. -/
theorem addSegmentInfos_deduct_behind (index : TLIndex) (n : NewSegment)
    (c : Option CurrentSegment) (last : TLEntry)
    (hlast : index.timeline.getLast? = some last)
    (hded : shouldDeductNextSegment index n c = true)
    (hle : (scaledNewSegment index n).1 + (scaledNewSegment index n).2 ≤
      last.ts + last.d * (last.r : ℚ)) :
    _addSegmentInfos index n c = some (false, index.timeline) := by
  have h0 : (scaledNewSegment index n).1 + (scaledNewSegment index n).2 -
      (last.ts + last.d * (last.r : ℚ)) ≤ 0 := sub_nonpos.mpr hle
  simp [_addSegmentInfos, hlast, hded, h0]

/-- Witness for C5's theorem: timeline `[{ts 0, d 10, r 1}]`, deduced tick
`5 + 3 = 8 ≤ 10`: the call returns `false` and keeps the timeline. -/
theorem addSegmentInfos_deduct_behind_witness :
    _addSegmentInfos ⟨[⟨0, 10, 1⟩], 1, 0, none⟩ ⟨5, 3, 1⟩ (some ⟨5, 1⟩) =
      some (false, [⟨0, 10, 1⟩]) :=
  addSegmentInfos_deduct_behind ⟨[⟨0, 10, 1⟩], 1, 0, none⟩ ⟨5, 3, 1⟩
    (some ⟨5, 1⟩) ⟨0, 10, 1⟩ rfl
    (by norm_num [shouldDeductNextSegment, scaledCurrentTime, scaledNewSegment])
    (by norm_num [scaledNewSegment])

/-- C6 (counterexample): at a defined duration of `0` the source computes
`endDiff` from `Infinity`, not from the defined value: with
`bufferSize = 30`, `liveGap = ∞`, `duration = 0`, `currentTime = 10` it wants
`30` seconds of buffer, while the claim's formula
`max(0, min(30, ∞, 0 − 10))` yields `0`. -/
theorem wantedBufferSize_zero_duration_cx :
    wantedBufferSize 30 XQ.inf (some 0) 10 = XQ.fin 30 ∧
    XQ.max (XQ.fin 0) (XQ.min (XQ.fin 30)
      (XQ.min XQ.inf ((XQ.fin 0).subQ 10))) = XQ.fin 0 := by
  refine ⟨?_, ?_⟩ <;>
    norm_num [wantedBufferSize, endDiff, XQ.subQ, XQ.min, XQ.max]

/-- C6 (amended): `endDiff` is `clock.duration − currentTime` when the
duration is defined **and non-zero** (JavaScript `||` is a truthiness test),
else `∞ − currentTime`; the wanted buffer size is
`max(0, min(wantedBufferSize, liveGap, endDiff))` in both cases (an infinite
`endDiff` drops out of the minimum). -/
theorem wantedBufferSize_characterization (bufferSize : ℚ) (liveGap : XQ)
    (duration : Option ℚ) (timestamp : ℚ) :
    (∀ dv, duration = some dv → dv ≠ 0 →
      wantedBufferSize bufferSize liveGap duration timestamp =
        XQ.max (XQ.fin 0) (XQ.min (XQ.fin bufferSize)
          (XQ.min liveGap (XQ.fin (dv - timestamp))))) ∧
    (duration = none ∨ duration = some 0 →
      wantedBufferSize bufferSize liveGap duration timestamp =
        XQ.max (XQ.fin 0) (XQ.min (XQ.fin bufferSize) liveGap)) := by
  have hmin : ∀ a : XQ, XQ.min a XQ.inf = a := by
    intro a
    cases a <;> rfl
  constructor
  · intro dv hdv hne
    subst hdv
    simp [wantedBufferSize, endDiff, hne, XQ.subQ]
  · rintro (h | h) <;> subst h <;>
      simp [wantedBufferSize, endDiff, XQ.subQ, hmin]

/-- Witness for C6's theorem: `duration = 20`, `currentTime = 5`,
`bufferSize = 30`, `liveGap = ∞` gives `min(30, ∞, 15)` under the `max`. -/
theorem wantedBufferSize_characterization_witness :
    wantedBufferSize 30 XQ.inf (some 20) 5 =
      XQ.max (XQ.fin 0) (XQ.min (XQ.fin 30)
        (XQ.min XQ.inf (XQ.fin (20 - 5)))) :=
  (wantedBufferSize_characterization 30 XQ.inf (some 20) 5).1 20 rfl
    (by norm_num)

/-- C9: the `setManualBitrate` / `getManualBitrate` round trip fails when no
chooser has been instantiated for the type: the setter stores the bitrate
under `_chooserInstanceOptions.initialBitrates` (against its own comment's
intent) while the getter reads `_chooserInstanceOptions.manualBitrates`, so
the read returns the untouched old value (`none` here), not `5000`.  The
`setMaxAutoBitrate` / `getMaxAutoBitrate` round trip and the
with-chooser manual round trip both behave as claimed. -/
theorem manualBitrate_roundtrip_eval :
    getManualBitrate
      (setManualBitrate ⟨fun _ => none, fun _ => none, fun _ => none,
        fun _ => none⟩ .video 5000) .video = none ∧
    getMaxAutoBitrate
      (setMaxAutoBitrate ⟨fun _ => none, fun _ => none, fun _ => none,
        fun _ => none⟩ .video 5000) .video = some 5000 ∧
    getManualBitrate
      (setManualBitrate ⟨fun t => if t = .video then some ⟨-1, 100⟩ else none,
        fun _ => none, fun _ => none, fun _ => none⟩ .video 5000) .video =
      some 5000 := by
  refine ⟨rfl, ?_, rfl⟩
  simp [setMaxAutoBitrate, getMaxAutoBitrate, updTable]

/-- C7: over any finite tick sequence the derived seekings stream starts with
the one synthetic seed element, its total length is one emission per
qualifying tick (state `"seeking"` and `bufferGap` infinite or below `-2 s`)
except the first qualifying tick, floored at the lone synthetic element, and
its `(k+1)`-th element is exactly the `(k+2)`-th qualifying tick. -/
theorem seekingsSampler_characterization (ticks : List ClockTick) :
    (seekingsSampler ticks).head? = some none ∧
    (seekingsSampler ticks).length =
      Max.max 1 (ticks.countP seekQualifies) ∧
    ∀ k : ℕ, (seekingsSampler ticks)[k + 1]? =
      ((ticks.filter seekQualifies)[k + 1]?).map some := by
  refine ⟨rfl, ?_, ?_⟩
  · simp only [seekingsSampler, List.length_cons, List.length_map,
      List.length_drop, List.countP_eq_length_filter]
    omega
  · intro k
    simp only [seekingsSampler, List.getElem?_cons_succ, List.getElem?_map,
      List.getElem?_drop, Nat.add_comm]

/-- A property read on an object misses every key the object does not hold. -/
theorem getProp_eq_none (o : JSObj) (k : String)
    (h : k ∉ o.map Prod.fst) : getProp o k = none := by
  induction o with
  | nil => rfl
  | cons p t ih =>
    obtain ⟨k', v'⟩ := p
    simp only [List.map_cons, List.mem_cons] at h
    push_neg at h
    simp only [getProp, if_neg (Ne.symm h.1)]
    exact ih h.2

/-- Reading back the key just written. -/
theorem getProp_setProp_same (o : JSObj) (k : String) (v : JSVal) :
    getProp (setProp o k v) k = some v := by
  induction o with
  | nil => simp [setProp, getProp]
  | cons p t ih =>
    obtain ⟨k', v'⟩ := p
    by_cases hk : k' = k
    · subst hk
      simp [setProp, getProp]
    · simp [setProp, getProp, hk, ih]

/-- Writing one key leaves every other key unchanged. -/
theorem getProp_setProp_ne (o : JSObj) (k k2 : String) (v : JSVal)
    (h : k2 ≠ k) : getProp (setProp o k v) k2 = getProp o k2 := by
  induction o with
  | nil => simp [setProp, getProp, Ne.symm h]
  | cons p t ih =>
    obtain ⟨k', v'⟩ := p
    by_cases hk : k' = k
    · subst hk
      simp [setProp, getProp, Ne.symm h, h]
    · simp only [setProp, if_neg hk, getProp]
      split <;> simp [ih]

/-- `objectAssign` seen through `getProp`: a source with distinct keys wins on
its own keys, the target shows through elsewhere. -/
theorem getProp_objectAssign (src : JSObj)
    (hnd : (src.map Prod.fst).Nodup) (tgt : JSObj) (k : String) :
    getProp (objectAssign tgt src) k =
      match getProp src k with
      | some v => some v
      | none => getProp tgt k := by
  induction src generalizing tgt with
  | nil => simp [objectAssign, getProp]
  | cons p t ih =>
    obtain ⟨k0, v0⟩ := p
    simp only [List.map_cons, List.nodup_cons] at hnd
    simp only [objectAssign]
    rw [ih hnd.2]
    by_cases hk : k0 = k
    · subst hk
      have ht : getProp t k0 = none := getProp_eq_none t k0 hnd.1
      simp [getProp, ht, getProp_setProp_same]
    · simp only [getProp, if_neg hk]
      split <;> simp [getProp_setProp_ne tgt k0 k v0 (Ne.symm hk)]

/-- C10: the JavaScript and TypeScript versions of
`createTimingsAndSeekingsObservables` compute extensionally the same
augmented timing for every manifest and every input tick (a tick without an
own `liveGap` property, as the TypeScript input type `IStreamClockTick`
declares): `liveGap` is `getMaximumBufferPosition(manifest) − currentTime`
when the manifest is live and `∞` otherwise, every other property of the
input tick unchanged. -/
theorem timingsAugment_equiv (manifest : Manifest) (timing : JSObj)
    (hnd : (timing.map Prod.fst).Nodup)
    (hlg : getProp timing "liveGap" = none) :
    (∀ k, getProp (augmentTimingJS manifest timing) k =
      getProp (augmentTimingTS manifest timing) k) ∧
    getProp (augmentTimingJS manifest timing) "liveGap" =
      some (if manifest.isLive then
        JSVal.num (manifest.maximumBufferPosition - numProp timing "currentTime")
      else JSVal.infin) ∧
    (∀ k, k ≠ "liveGap" →
      getProp (augmentTimingJS manifest timing) k = getProp timing k) := by
  have hJS : ∀ k, getProp (augmentTimingJS manifest timing) k =
      if k = "liveGap" then some (liveGapValue manifest timing)
      else getProp timing k := by
    intro k
    unfold augmentTimingJS
    by_cases hk : k = "liveGap"
    · subst hk
      simp [getProp_setProp_same]
    · rw [if_neg hk, getProp_setProp_ne _ _ _ _ hk,
        getProp_objectAssign timing hnd]
      cases h : getProp timing k <;> simp [getProp]
  have hTS : ∀ k, getProp (augmentTimingTS manifest timing) k =
      if k = "liveGap" then some (liveGapValue manifest timing)
      else getProp timing k := by
    intro k
    unfold augmentTimingTS
    rw [getProp_objectAssign timing hnd]
    by_cases hk : k = "liveGap"
    · subst hk
      simp [hlg, getProp]
    · have hk' : ¬ ("liveGap" = k) := fun hh => hk hh.symm
      cases h : getProp timing k <;> simp [getProp, hk, hk', h]
  refine ⟨fun k => by rw [hJS, hTS], ?_, fun k hk => by rw [hJS, if_neg hk]⟩
  rw [hJS, if_pos rfl]
  simp [liveGapValue]

/-- Witness for C10's theorem: a live manifest with maximum buffer position
`100` and the tick `{currentTime: 7, state: "playing"}`. -/
theorem timingsAugment_equiv_witness :
    getProp (augmentTimingJS ⟨true, 100⟩
        [("currentTime", JSVal.num 7), ("state", JSVal.str "playing")])
      "liveGap" =
      some (if (Manifest.mk true 100).isLive then
        JSVal.num ((Manifest.mk true 100).maximumBufferPosition -
          numProp [("currentTime", JSVal.num 7), ("state", JSVal.str "playing")]
            "currentTime")
      else JSVal.infin) :=
  (timingsAugment_equiv ⟨true, 100⟩
    [("currentTime", JSVal.num 7), ("state", JSVal.str "playing")]
    (by decide) (by decide)).2.1

/-- C2 (counterexample): idempotence fails.  On the timeline
`[{ts 0, d 2, r 0}]` the segment `{time 10, duration 2}` (no current segment)
makes the first call return `true` by incrementing `r`; the second call with
the same pair again returns `true` and increments `r` again, because the new
range end `4` is still at most the segment time `10`. -/
theorem addSegmentInfos_not_idempotent_cx :
    _addSegmentInfos ⟨[⟨0, 2, 0⟩], 1, 0, none⟩ ⟨10, 2, 1⟩ none =
      some (true, [⟨0, 2, 1⟩]) ∧
    _addSegmentInfos ⟨[⟨0, 2, 1⟩], 1, 0, none⟩ ⟨10, 2, 1⟩ none =
      some (true, [⟨0, 2, 2⟩]) := by
  constructor <;>
    norm_num [_addSegmentInfos, shouldDeductNextSegment, scaledCurrentTime,
      scaledNewSegment, getTimelineRangeEnd]

/-- C2 (amended): when a call to `_addSegmentInfos` returns `true`, an
immediately repeated call with the same `(newSegment, currentSegment)` pair
returns `false` and leaves the timeline unchanged, provided deduction mode
applies, or — in append mode — the scaled new duration is positive and the
scaled new time lies less than one duration past the old range end.  (The
claim's unconditional "`true` then `false`" fails: a first call can return
`false`, and an append landing a full duration or more past the range end
keeps returning `true`.) -/
theorem addSegmentInfos_second_call (index : TLIndex) (n : NewSegment)
    (c : Option CurrentSegment) (last : TLEntry) (tl1 : List TLEntry)
    (hlast : index.timeline.getLast? = some last)
    (h1 : _addSegmentInfos index n c = some (true, tl1))
    (hside : shouldDeductNextSegment index n c = true ∨
      (0 < (scaledNewSegment index n).2 ∧
        (scaledNewSegment index n).1 <
          getTimelineRangeEnd last + (scaledNewSegment index n).2)) :
    _addSegmentInfos { index with timeline := tl1 } n c = some (false, tl1) := by
  simp only [_addSegmentInfos] at h1 ⊢
  rw [hlast] at h1
  simp only at h1 ⊢
  by_cases hd : shouldDeductNextSegment index n c = true
  · rw [if_pos hd] at h1
    have hd2 : shouldDeductNextSegment { index with timeline := tl1 } n c =
        true := hd
    split at h1
    · exact absurd (Option.some.inj h1) (by simp)
    · have htl := congrArg Prod.snd (Option.some.inj h1)
      simp only at htl
      have hlast2 : tl1.getLast? =
          some ⟨(scaledNewSegment index n).1 + (scaledNewSegment index n).2,
            -1, 0⟩ := by
        rw [← htl]
        exact List.getLast?_concat _
      rw [hlast2]
      simp only [hd2, if_true]
      rw [if_pos]
      show ((scaledNewSegment index n).1 + (scaledNewSegment index n).2) -
          (((scaledNewSegment index n).1 + (scaledNewSegment index n).2) +
            (-1 : ℚ) * ((0 : ℕ) : ℚ)) ≤ 0
      push_cast
      ring_nf
      norm_num
  · have hside2 : 0 < (scaledNewSegment index n).2 ∧
        (scaledNewSegment index n).1 <
          getTimelineRangeEnd last + (scaledNewSegment index n).2 := by
      rcases hside with h | h
      · exact absurd h hd
      · exact h
    rw [if_neg hd] at h1
    have hd2 : ¬ shouldDeductNextSegment { index with timeline := tl1 } n c =
        true := hd
    split at h1
    · rename_i hge
      split at h1
      · rename_i hdd
        have htl := congrArg Prod.snd (Option.some.inj h1)
        simp only at htl
        have hlast2 : tl1.getLast? = some { last with r := last.r + 1 } := by
          rw [← htl]
          exact List.getLast?_concat _
        rw [hlast2]
        simp only [hd2, if_false, Bool.false_eq_true]
        rw [if_neg]
        show ¬ ((scaledNewSegment index n).1 ≥
          getTimelineRangeEnd { last with r := last.r + 1 })
        have hend : getTimelineRangeEnd { last with r := last.r + 1 } =
            getTimelineRangeEnd last + last.d := by
          simp only [getTimelineRangeEnd]
          push_cast
          ring
        rw [hend, hdd]
        have h2 := hside2.2
        linarith
      · rename_i hdd
        have htl := congrArg Prod.snd (Option.some.inj h1)
        simp only at htl
        have hlast2 : tl1.getLast? =
            some ⟨(scaledNewSegment index n).1, (scaledNewSegment index n).2,
              0⟩ := by
          rw [← htl]
          exact List.getLast?_concat _
        rw [hlast2]
        simp only [hd2, if_false, Bool.false_eq_true]
        rw [if_neg]
        show ¬ ((scaledNewSegment index n).1 ≥
          getTimelineRangeEnd ⟨(scaledNewSegment index n).1,
            (scaledNewSegment index n).2, 0⟩)
        simp only [getTimelineRangeEnd]
        push_cast
        have h0 := hside2.1
        intro hc
        nlinarith
    · exact absurd (Option.some.inj h1) (by simp)

/-- Witness for C2's theorem: the spec's own deduction scenario — timeline
`[{ts 100, d -1, r 0}]`, `newSegment {time 100, duration 4}` with
`currentSegment {time 100}` — whose first call returns `true` producing
`[{100,4,0},{104,-1,0}]`; the repeated call returns `false` and keeps that
timeline. -/
theorem addSegmentInfos_second_call_witness :
    _addSegmentInfos ⟨[⟨100, 4, 0⟩, ⟨104, -1, 0⟩], 1, 0, none⟩ ⟨100, 4, 1⟩
      (some ⟨100, 1⟩) = some (false, [⟨100, 4, 0⟩, ⟨104, -1, 0⟩]) :=
  addSegmentInfos_second_call ⟨[⟨100, -1, 0⟩], 1, 0, none⟩ ⟨100, 4, 1⟩
    (some ⟨100, 1⟩) ⟨100, -1, 0⟩ [⟨100, 4, 0⟩, ⟨104, -1, 0⟩] rfl
    (by norm_num [_addSegmentInfos, shouldDeductNextSegment, scaledCurrentTime,
      scaledNewSegment, getTimelineRangeEnd])
    (Or.inl (by norm_num [shouldDeductNextSegment, scaledCurrentTime,
      scaledNewSegment]))

/-- In a strictly sorted list the elements below `target` form a prefix: the
`i`-th element is below `target` exactly when `i` is below their count. -/
theorem countP_lt_of_pairwise (l : List ℚ) (target : ℚ)
    (hs : l.Pairwise (· < ·)) (i : ℕ) (hi : i < l.length) :
    (l.getD i 0 < target ↔ i < l.countP (fun x => decide (x < target))) := by
  induction l generalizing i with
  | nil => simp at hi
  | cons a t ih =>
    rw [List.pairwise_cons] at hs
    rw [List.countP_cons]
    by_cases ha : a < target
    · cases i with
      | zero => simp [ha]
      | succ j =>
        simp only [List.getD_cons_succ, List.length_cons] at hi ⊢
        rw [ih hs.2 j (by omega)]
        simp [ha]
    · have ht : t.countP (fun x => decide (x < target)) = 0 := by
        rw [List.countP_eq_zero]
        intro x hx
        simp only [decide_eq_true_eq, not_lt]
        push_neg at ha
        linarith [hs.1 x hx]
      cases i with
      | zero => simp [ha, ht]
      | succ j =>
        simp only [List.getD_cons_succ, List.length_cons] at hi ⊢
        have hj : j < t.length := by omega
        rw [List.getD_eq_getElem t 0 hj]
        have hmem := List.getElem_mem hj
        push_neg at ha
        have hnlt : ¬ (t[j] < target) := by linarith [hs.1 _ hmem]
        have ha' : ¬ a < target := not_lt.mpr ha
        rw [ht]
        simp [ha', hnlt]

/-- The binary-search loop of `getSegmentIndex` computes the lower bound: on
a strictly sorted array it returns the number of elements below `target`,
given consistent bounds and enough fuel. -/
theorem bsearchGo_eq (l : List ℚ) (target : ℚ)
    (hs : l.Pairwise (· < ·)) (fuel : ℕ) :
    ∀ low high : ℕ, low ≤ l.countP (fun x => decide (x < target)) →
      l.countP (fun x => decide (x < target)) ≤ high → high ≤ l.length →
      high - low ≤ fuel →
      bsearchGo l target fuel low high =
        l.countP (fun x => decide (x < target)) := by
  induction fuel with
  | zero =>
    intro low high h1 h2 h3 h4
    simp only [bsearchGo]
    omega
  | succ fuel ih =>
    intro low high h1 h2 h3 h4
    simp only [bsearchGo]
    by_cases hlh : low < high
    · rw [if_pos hlh]
      have hmid : (low + high) / 2 < l.length := by omega
      by_cases hlt : l.getD ((low + high) / 2) 0 < target
      · rw [if_pos hlt]
        have := (countP_lt_of_pairwise l target hs _ hmid).1 hlt
        exact ih _ _ (by omega) h2 h3 (by omega)
      · rw [if_neg hlt]
        have := mt (countP_lt_of_pairwise l target hs _ hmid).2 hlt
        exact ih _ _ h1 (by omega) (by omega) (by omega)
    · rw [if_neg hlh]
      omega

/-- Wellformedness passes to the tail of a timeline. -/
theorem wfTimeline_tail (e : TLEntry) (rest : List TLEntry)
    (h : wfTimeline (e :: rest) = true) : wfTimeline rest = true := by
  cases rest with
  | nil => rfl
  | cons e' r =>
    simp only [wfTimeline, Bool.and_eq_true] at h
    exact h.2

/-- In a wellformed timeline of two or more entries, the head has positive
duration and its range ends no later than the next entry starts. -/
theorem wfTimeline_head_pos (e e' : TLEntry) (rest : List TLEntry)
    (h : wfTimeline (e :: e' :: rest) = true) :
    0 < e.d ∧ getTimelineRangeEnd e ≤ e'.ts := by
  simp only [wfTimeline, Bool.and_eq_true, decide_eq_true_eq] at h
  exact ⟨h.1.1, h.1.2⟩

/-- The start ticks of a wellformed timeline form a strictly increasing
chain. -/
theorem wf_ts_chain (tl : List TLEntry) (h : wfTimeline tl = true) :
    List.Chain' (· < ·) (tl.map TLEntry.ts) := by
  induction tl with
  | nil => simp
  | cons e rest ih =>
    cases rest with
    | nil => simp
    | cons e' r =>
      obtain ⟨hd, hle⟩ := wfTimeline_head_pos e e' r h
      have hpos : 0 < ((e.r : ℚ) + 1) * e.d := mul_pos (by positivity) hd
      rw [getTimelineRangeEnd] at hle
      have hts : e.ts < e'.ts := by linarith
      rw [List.map_cons, List.map_cons, List.chain'_cons]
      exact ⟨hts, by simpa using ih (wfTimeline_tail _ _ h)⟩

/-- The start ticks of a wellformed timeline are pairwise strictly
increasing. -/
theorem wf_ts_pairwise (tl : List TLEntry) (h : wfTimeline tl = true) :
    (tl.map TLEntry.ts).Pairwise (· < ·) :=
  List.chain'_iff_pairwise.mp (wf_ts_chain tl h)

/-- On a timeline with strictly increasing start ticks, `getSegmentIndex`
locates the latest entry starting strictly before `t` — index `c - 1` where
`c` counts the entries with `ts < t` — or entry `0` when there is none. -/
theorem getSegmentIndex_eq (index : TLIndex) (t : ℚ)
    (hs : (index.timeline.map TLEntry.ts).Pairwise (· < ·)) :
    getSegmentIndex index t =
      if 0 < index.timeline.countP (fun e => decide (e.ts < t)) then
        index.timeline.countP (fun e => decide (e.ts < t)) - 1
      else 0 := by
  unfold getSegmentIndex
  simp only
  have hc : (index.timeline.map TLEntry.ts).countP (fun x => decide (x < t)) =
      index.timeline.countP (fun e => decide (e.ts < t)) := by
    rw [List.countP_map]
    rfl
  have hb1 : (index.timeline.map TLEntry.ts).countP (fun x => decide (x < t)) ≤
      index.timeline.length := by
    rw [← List.length_map index.timeline TLEntry.ts]
    exact List.countP_le_length _
  have hb2 : index.timeline.length ≤ (index.timeline.map TLEntry.ts).length := by
    rw [List.length_map]
  rw [bsearchGo_eq (index.timeline.map TLEntry.ts) t hs
    (index.timeline.length + 1) 0 index.timeline.length (Nat.zero_le _) hb1 hb2
    (by omega)]
  rw [hc]
  by_cases h : 0 < List.countP (fun e => decide (e.ts < t)) index.timeline
  · simp [h]
  · simp only [not_lt, Nat.le_zero] at h
    simp [h]

/-- C8 (amended): on a wellformed timeline, `checkDiscontinuity` returns
`-1` for `time ≤ 0`, and otherwise returns the next entry's start
(`ts / timescale`) if and only if, with `i` the latest entry whose `ts` is
strictly below `time` (or the first entry when none is), `i` is not the last
entry, entry `i` is not open-ended, `time` lies within the last tick of entry
`i` (`ts_i ≤ time ≤ rangeEnd_i` and `rangeEnd_i - time < timescale`), and the
next entry's `ts` differs from `rangeEnd_i = ts_i + (r+1)·d`; `-1` in all
other cases.  (The claim's "the entry containing `time`" is wrong at exact
entry starts: the binary search maps `time = ts_i` to entry `i - 1`.) -/
theorem checkDiscontinuity_located (index : TLIndex) (_time : ℚ)
    (hwf : wfTimeline index.timeline = true) :
    checkDiscontinuity index _time =
      (if _time * index.timescale ≤ 0 then -1
       else
         let time := _time * index.timescale
         let c := index.timeline.countP (fun e => decide (e.ts < time))
         let i := if 0 < c then c - 1 else 0
         match index.timeline.get? i, index.timeline.get? (i + 1) with
         | some range, some nextRange =>
             if range.d ≠ -1 ∧ range.ts ≤ time ∧
                 time ≤ getTimelineRangeEnd range ∧
                 getTimelineRangeEnd range - time < index.timescale ∧
                 getTimelineRangeEnd range ≠ nextRange.ts then
               nextRange.ts / index.timescale
             else -1
         | _, _ => -1) := by
  unfold checkDiscontinuity
  simp only
  by_cases h0 : _time * index.timescale ≤ 0
  · rw [if_pos h0, if_pos h0]
  · rw [if_neg h0, if_neg h0]
    rw [getSegmentIndex_eq index _ (wf_ts_pairwise _ hwf)]
    set c := index.timeline.countP
      (fun e => decide (e.ts < _time * index.timescale)) with hcdef
    set i := if 0 < c then c - 1 else 0 with hidef
    by_cases hi : i ≥ index.timeline.length - 1
    · rw [if_pos hi]
      have hnone : index.timeline.get? (i + 1) = none := by
        rw [List.get?_eq_getElem?, List.getElem?_eq_none]
        omega
      rw [hnone]
      cases hr : index.timeline.get? i <;> rfl
    · rw [if_neg hi]
      have h1 : i < index.timeline.length := by omega
      have h2 : i + 1 < index.timeline.length := by omega
      have hrange : index.timeline.get? i = some (index.timeline[i]) := by
        rw [List.get?_eq_getElem?]
        exact List.getElem?_eq_getElem h1
      have hnext : index.timeline.get? (i + 1) =
          some (index.timeline[i + 1]) := by
        rw [List.get?_eq_getElem?]
        exact List.getElem?_eq_getElem h2
      rw [hrange, hnext]
      simp only
      by_cases hd : (index.timeline[i]).d = -1
      · rw [if_pos hd, if_neg]
        intro hcon
        exact hcon.1 hd
      · rw [if_neg hd]
        refine if_congr ?_ rfl rfl
        constructor
        · rintro ⟨hA, hB, hC, hD⟩
          exact ⟨hd, hB, hC, hD, hA⟩
        · rintro ⟨_, hB, hC, hD, hA⟩
          exact ⟨hA, hB, hC, hD⟩

/-- C8 (counterexample): with timescale `10` and timeline
`[{0,5,0},{100,5,0},{200,5,0}]` at `time = 10 s` (tick `100`), the entry
containing tick `100` is `{100,5,0}`, `100` lies within its last tick
(`105 - 100 = 5 < 10`), and the next entry starts at `200 ≠ 105`, so the
claim demands `200 / 10 = 20`; the source returns `-1` (its binary search
resolves tick `100` to the previous entry `{0,5,0}`). -/
theorem checkDiscontinuity_containing_cx :
    wfTimeline [⟨0, 5, 0⟩, ⟨100, 5, 0⟩, ⟨200, 5, 0⟩] = true ∧
    checkDiscontinuity ⟨[⟨0, 5, 0⟩, ⟨100, 5, 0⟩, ⟨200, 5, 0⟩], 10, 0, none⟩
      10 = -1 ∧
    ((⟨100, 5, 0⟩ : TLEntry).ts ≤ 10 * 10 ∧
     (10 : ℚ) * 10 ≤ getTimelineRangeEnd ⟨100, 5, 0⟩ ∧
     getTimelineRangeEnd ⟨100, 5, 0⟩ - 10 * 10 < 10 ∧
     getTimelineRangeEnd ⟨100, 5, 0⟩ ≠ (⟨200, 5, 0⟩ : TLEntry).ts) ∧
    (⟨200, 5, 0⟩ : TLEntry).ts / 10 ≠ (-1 : ℚ) := by
  with_unfolding_all decide

/-- Witness for C8's theorem: at `_time = 10.1 s` (tick `101`, strictly
inside the last tick of entry `{100,5,0}`) the discontinuity is reported:
the result is `200 / 10 = 20`. -/
theorem checkDiscontinuity_located_witness :
    checkDiscontinuity ⟨[⟨0, 5, 0⟩, ⟨100, 5, 0⟩, ⟨200, 5, 0⟩], 10, 0, none⟩
      (101 / 10) = 20 := by
  rw [checkDiscontinuity_located _ _ (by with_unfolding_all decide)]
  with_unfolding_all decide

/-- Every segment the inner `while` loop pushes has duration `d`, id
`(repId, time)`, a time below `toT` of the form `ts + j·d` for some
`j ∈ [k, rep]`. -/
theorem emitSegs_mem (repId : String) (tsc ts d : ℚ) (rep : ℕ) (toT : ℚ)
    (fuel : ℕ) : ∀ (k number : ℤ),
    ∀ s ∈ (emitSegs repId tsc ts d rep toT fuel k number).1,
      s.duration = some d ∧ s.id = (repId, s.time) ∧ s.time < toT ∧
      ∃ j : ℤ, k ≤ j ∧ j ≤ (rep : ℤ) ∧ s.time = ts + j * d := by
  induction fuel with
  | zero =>
    intro k number s hs
    simp [emitSegs] at hs
  | succ fuel ih =>
    intro k number s hs
    simp only [emitSegs] at hs
    split at hs
    · split at hs
      · rename_i hlt hle
        simp only [List.mem_cons] at hs
        rcases hs with rfl | hs
        · exact ⟨rfl, rfl, hlt, k, le_refl _, hle, rfl⟩
        · obtain ⟨h1, h2, h3, j, hj1, hj2, hj3⟩ := ih (k + 1) (number + 1) s hs
          exact ⟨h1, h2, h3, j, by omega, hj2, hj3⟩
      · simp at hs
    · simp at hs

/-- The first segment the inner loop pushes (when any) sits at
`ts + k·d`. -/
theorem emitSegs_head (repId : String) (tsc ts d : ℚ) (rep : ℕ) (toT : ℚ)
    (fuel : ℕ) (k number : ℤ) :
    ∀ s, (emitSegs repId tsc ts d rep toT fuel k number).1.head? = some s →
      s.time = ts + k * d := by
  cases fuel with
  | zero =>
    intro s hs
    simp [emitSegs] at hs
  | succ fuel =>
    intro s hs
    simp only [emitSegs] at hs
    split at hs
    · split at hs
      · simp only [List.head?_cons, Option.some.injEq] at hs
        rw [← hs]
      · simp at hs
    · simp at hs

/-- For positive `d` the inner loop pushes strictly increasing times. -/
theorem emitSegs_chain (repId : String) (tsc ts d : ℚ) (rep : ℕ) (toT : ℚ)
    (hd : 0 < d) (fuel : ℕ) : ∀ (k number : ℤ),
    List.Chain' (· < ·)
      ((emitSegs repId tsc ts d rep toT fuel k number).1.map Seg.time) := by
  induction fuel with
  | zero =>
    intro k number
    simp [emitSegs]
  | succ fuel ih =>
    intro k number
    simp only [emitSegs]
    split
    · split
      · rw [List.map_cons]
        rw [List.chain'_cons']
        refine ⟨?_, ih (k + 1) (number + 1)⟩
        intro y hy
        rw [List.head?_map] at hy
        cases hh : (emitSegs repId tsc ts d rep toT fuel (k + 1)
            (number + 1)).1.head? with
        | none => rw [hh] at hy; simp at hy
        | some s' =>
          rw [hh] at hy
          simp only [Option.map_some', Option.map_some, Option.mem_def, Option.some.injEq] at hy
          have hteq := emitSegs_head repId tsc ts d rep toT fuel (k + 1)
            (number + 1) s' hh
          show ts + (k : ℚ) * d < y
          rw [← hy, hteq]
          push_cast
          nlinarith
      · simp
    · simp

/-- The head of a wellformed timeline that is not open-ended has positive
duration. -/
theorem wfTimeline_head_dpos (e : TLEntry) (rest : List TLEntry)
    (h : wfTimeline (e :: rest) = true) (hneg : ¬ e.d < 0) : 0 < e.d := by
  cases rest with
  | nil =>
    simp only [wfTimeline, Bool.or_eq_true, decide_eq_true_eq] at h
    rcases h with h | h
    · exact h
    · exact absurd (h ▸ (by norm_num : (-1 : ℚ) < 0)) hneg
  | cons e' r => exact (wfTimeline_head_pos e e' r h).1

/-- Consecutive entries of a wellformed timeline have strictly increasing
start ticks. -/
theorem wfTimeline_ts_lt (e e' : TLEntry) (rest : List TLEntry)
    (h : wfTimeline (e :: e' :: rest) = true) : e.ts < e'.ts := by
  obtain ⟨hd, hle⟩ := wfTimeline_head_pos e e' rest h
  have hpos : 0 < ((e.r : ℚ) + 1) * e.d := mul_pos (by positivity) hd
  rw [getTimelineRangeEnd] at hle
  linarith

/-- Wellformedness survives dropping a prefix of the timeline. -/
theorem wfTimeline_drop (tl : List TLEntry) (n : ℕ)
    (h : wfTimeline tl = true) : wfTimeline (tl.drop n) = true := by
  induction n generalizing tl with
  | zero => simpa using h
  | succ m ih =>
    cases tl with
    | nil => rfl
    | cons e rest =>
      rw [List.drop_succ_cons]
      exact ih rest (wfTimeline_tail e rest h)

/-- Every entry's duration is bounded by the timeline's maximum entry
duration. -/
theorem maxEntryDuration_mem (tl : List TLEntry) (e : TLEntry) (he : e ∈ tl) :
    e.d ≤ maxEntryDuration tl := by
  induction tl with
  | nil => simp at he
  | cons a t ih =>
    rcases List.mem_cons.1 he with rfl | he'
    · exact le_max_left _ _
    · exact le_trans (ih he') (le_max_right _ _)

/-- The skip count is never negative for positive durations. -/
theorem getSegmentNumber_nonneg (up ts d : ℚ) (hd : 0 < d) :
    0 ≤ getSegmentNumber up ts d := by
  unfold getSegmentNumber
  simp only
  split
  · rename_i hdiff
    exact Int.floor_nonneg.mpr (le_of_lt (div_pos hdiff hd))
  · exact le_refl 0

/-- The first candidate tick `ts + getSegmentNumber·d` is never below
`up - d`: the loop starts at most one duration before the wanted time. -/
theorem getSegmentNumber_bound (up ts d : ℚ) (hd : 0 < d) :
    up - d ≤ ts + (getSegmentNumber up ts d : ℚ) * d := by
  unfold getSegmentNumber
  simp only
  split
  · rename_i hdiff
    have h1 : (up - ts) / d - 1 < (⌊(up - ts) / d⌋ : ℚ) :=
      Int.sub_one_lt_floor _
    have h2 : ((up - ts) / d - 1) * d < (⌊(up - ts) / d⌋ : ℚ) * d :=
      mul_lt_mul_of_pos_right h1 hd
    rw [sub_mul, div_mul_cancel₀ _ (ne_of_gt hd), one_mul] at h2
    linarith
  · rename_i hdiff
    push_neg at hdiff
    push_cast
    linarith

/-- Invariants of the outer `getSegments` loop over a wellformed suffix:
every produced segment has id `(repId, time)`, a time at or after the first
entry's start, and — when its duration is defined — a time below the upper
bound `toT` and at most one entry-duration below `up`. -/
theorem segLoop_mem (repId : String) (tsc up toT : ℚ) (entries : List TLEntry) :
    ∀ (m : ℚ) (n : ℤ), wfTimeline entries = true →
    ∀ s ∈ segLoop repId tsc up toT entries m n,
      s.id = (repId, s.time) ∧
      (∀ e0 ∈ entries.head?, e0.ts ≤ s.time) ∧
      (∀ dd, s.duration = some dd →
        s.time < toT ∧ ∃ e ∈ entries, dd = e.d ∧ 0 < e.d ∧ up - e.d ≤ s.time) := by
  induction entries with
  | nil =>
    intro m n hwf s hs
    simp [segLoop] at hs
  | cons e rest ih =>
    intro m n hwf s hs
    have htail : ∀ m' n', s ∈ segLoop repId tsc up toT rest m' n' →
        s.id = (repId, s.time) ∧ (∀ e0 ∈ (e :: rest).head?, e0.ts ≤ s.time) ∧
        (∀ dd, s.duration = some dd →
          s.time < toT ∧ ∃ e2 ∈ e :: rest, dd = e2.d ∧ 0 < e2.d ∧
            up - e2.d ≤ s.time) := by
      intro m' n' hs'
      cases rest with
      | nil => simp [segLoop] at hs'
      | cons e' r =>
        obtain ⟨hid, hh, hdur⟩ := ih m' n' (wfTimeline_tail e _ hwf) s hs'
        refine ⟨hid, ?_, ?_⟩
        · intro e0 he0
          simp only [List.head?_cons, Option.mem_def, Option.some.injEq] at he0
          have h1 := hh e' (by simp)
          have h2 := wfTimeline_ts_lt e e' r hwf
          rw [← he0]
          linarith
        · intro dd hdd
          obtain ⟨hlt, e2, he2, h3⟩ := hdur dd hdd
          exact ⟨hlt, e2, List.mem_cons_of_mem _ he2, h3⟩
    simp only [segLoop] at hs
    split at hs
    · -- open-ended entry: d < 0
      split at hs
      · simp only [List.mem_singleton] at hs
        subst hs
        refine ⟨rfl, ?_, ?_⟩
        · intro e0 he0
          simp only [List.head?_cons, Option.mem_def, Option.some.injEq] at he0
          rw [← he0]
        · intro dd hdd
          simp at hdd
      · simp at hs
    · rename_i hneg
      have hdpos : 0 < e.d := wfTimeline_head_dpos e rest hwf hneg
      split at hs
      · -- skip: segmentNumber > repeat
        exact htail _ _ hs
      · rename_i hsn
        push_neg at hsn
        -- emit case
        split at hs
        · rcases List.mem_append.1 hs with hmem | hmem
          · -- s from emitSegs
            obtain ⟨hdur, hid, hlt, j, hjk, hjr, htime⟩ :=
              emitSegs_mem repId tsc e.ts e.d (getRepeat e) toT
                (getRepeat e + 2) _ _ s hmem
            have hk0 : 0 ≤ getSegmentNumber up e.ts e.d :=
              getSegmentNumber_nonneg up e.ts e.d hdpos
            have hmono : e.ts + (getSegmentNumber up e.ts e.d : ℚ) * e.d ≤
                e.ts + (j : ℚ) * e.d := by
              have : ((getSegmentNumber up e.ts e.d : ℤ) : ℚ) ≤ (j : ℚ) := by
                exact_mod_cast hjk
              nlinarith
            refine ⟨hid, ?_, ?_⟩
            · intro e0 he0
              simp only [List.head?_cons, Option.mem_def,
                Option.some.injEq] at he0
              rw [← he0, htime]
              have hj0 : (0 : ℚ) ≤ (j : ℚ) := by
                have := le_trans hk0 hjk
                exact_mod_cast this
              nlinarith
            · intro dd hdd
              rw [hdur] at hdd
              obtain rfl := (Option.some.inj hdd).symm
              refine ⟨hlt, e, List.mem_cons_self e rest, rfl, hdpos, ?_⟩
              have hb := getSegmentNumber_bound up e.ts e.d hdpos
              rw [htime]
              linarith
          · exact htail _ _ hmem
        · -- break: only emitSegs output
          obtain ⟨hdur, hid, hlt, j, hjk, hjr, htime⟩ :=
            emitSegs_mem repId tsc e.ts e.d (getRepeat e) toT
              (getRepeat e + 2) _ _ s hs
          have hk0 : 0 ≤ getSegmentNumber up e.ts e.d :=
            getSegmentNumber_nonneg up e.ts e.d hdpos
          refine ⟨hid, ?_, ?_⟩
          · intro e0 he0
            simp only [List.head?_cons, Option.mem_def,
              Option.some.injEq] at he0
            rw [← he0, htime]
            have hj0 : (0 : ℚ) ≤ (j : ℚ) := by
              have := le_trans hk0 hjk
              exact_mod_cast this
            nlinarith
          · intro dd hdd
            rw [hdur] at hdd
            obtain rfl := (Option.some.inj hdd).symm
            refine ⟨hlt, e, List.mem_cons_self e rest, rfl, hdpos, ?_⟩
            have hb := getSegmentNumber_bound up e.ts e.d hdpos
            have hmono : e.ts + (getSegmentNumber up e.ts e.d : ℚ) * e.d ≤
                e.ts + (j : ℚ) * e.d := by
              have : ((getSegmentNumber up e.ts e.d : ℤ) : ℚ) ≤ (j : ℚ) := by
                exact_mod_cast hjk
              nlinarith
            rw [htime]
            linarith

/-- The last element of a list, when it exists, is a member. -/
theorem mem_of_getLast?_eq {α : Type} {l : List α} {a : α}
    (h : l.getLast? = some a) : a ∈ l := by
  obtain ⟨hne, heq⟩ :=
    List.mem_getLast?_eq_getLast (show a ∈ l.getLast? from h)
  rw [heq]
  exact List.getLast_mem hne

/-- The head of a list, when it exists, is a member. -/
theorem mem_of_head?_eq {α : Type} {l : List α} {a : α}
    (h : l.head? = some a) : a ∈ l := by
  rw [List.eq_cons_of_mem_head? (show a ∈ l.head? from h)]
  exact List.mem_cons_self _ _

/-- Over a wellformed suffix the outer loop produces strictly increasing
segment times. -/
theorem segLoop_chain (repId : String) (tsc up toT : ℚ)
    (entries : List TLEntry) :
    ∀ (m : ℚ) (n : ℤ), wfTimeline entries = true →
    List.Chain' (· < ·)
      ((segLoop repId tsc up toT entries m n).map Seg.time) := by
  induction entries with
  | nil =>
    intro m n hwf
    simp [segLoop]
  | cons e rest ih =>
    intro m n hwf
    simp only [segLoop]
    split
    · split
      · simp
      · simp
    · rename_i hneg
      have hdpos : 0 < e.d := wfTimeline_head_dpos e rest hwf hneg
      split
      · exact ih _ _ (wfTimeline_tail e rest hwf)
      · rename_i hsn
        push_neg at hsn
        split
        · rw [List.map_append, List.chain'_append]
          refine ⟨emitSegs_chain repId tsc e.ts e.d (getRepeat e) toT hdpos
              _ _ _,
            ih _ _ (wfTimeline_tail e rest hwf), ?_⟩
          intro x hx y hy
          rw [List.getLast?_map] at hx
          rw [List.head?_map] at hy
          cases hh1 : (emitSegs repId tsc e.ts e.d (getRepeat e) toT
              (getRepeat e + 2) (getSegmentNumber up e.ts e.d) (n + 1)).1.getLast? with
          | none =>
            rw [hh1] at hx
            simp at hx
          | some s1 =>
            rw [hh1] at hx
            simp only [Option.map_some', Option.mem_def,
              Option.some.injEq] at hx
            cases rest with
            | nil =>
              simp [segLoop] at hy
            | cons e' r =>
              cases hh2 : (segLoop repId tsc up toT (e' :: r) (max m e.d)
                  (emitSegs repId tsc e.ts e.d (getRepeat e) toT
                    (getRepeat e + 2) (getSegmentNumber up e.ts e.d)
                    (n + 1)).2.1).head? with
              | none =>
                rw [hh2] at hy
                simp at hy
              | some s2 =>
                rw [hh2] at hy
                simp only [Option.map_some', Option.mem_def,
                  Option.some.injEq] at hy
                have hs1mem := mem_of_getLast?_eq hh1
                have hs2mem := mem_of_head?_eq hh2
                obtain ⟨-, -, -, j, -, hjr, htime⟩ :=
                  emitSegs_mem repId tsc e.ts e.d (getRepeat e) toT
                    (getRepeat e + 2) _ _ s1 hs1mem
                obtain ⟨-, hh, -⟩ := segLoop_mem repId tsc up toT (e' :: r)
                  _ _ (wfTimeline_tail e _ hwf) s2 hs2mem
                have hb2 : e'.ts ≤ s2.time := hh e' (by simp)
                obtain ⟨-, hre⟩ := wfTimeline_head_pos e e' r hwf
                rw [getTimelineRangeEnd] at hre
                have hjr' : (j : ℚ) ≤ (getRepeat e : ℚ) := by
                  exact_mod_cast hjr
                have hx1 : x ≤ e.ts + (getRepeat e : ℚ) * e.d := by
                  rw [← hx, htime]
                  have := mul_le_mul_of_nonneg_right hjr' hdpos.le
                  linarith
                have hrep_eq : (getRepeat e : ℚ) = (e.r : ℚ) := by
                  rw [getRepeat]
                rw [← hy]
                rw [hrep_eq] at hx1
                nlinarith
        · exact emitSegs_chain repId tsc e.ts e.d (getRepeat e) toT hdpos _ _ _

/-- C3 (amended): for every wellformed timeline index, the segments
returned by `getSegments(repId, index, a, b)` — with `up, to` the normalized
tick bounds — have strictly ascending times and pairwise-distinct ids per
`(repId, time)`, and every segment **with a defined duration** (the claim's
window law fails only for the single trailing open-ended `d = -1` reference,
whose time is its entry's `ts`) has its time in `[up − maxD, to)` where
`maxD` is the maximum entry duration. -/
theorem getSegments_props (repId : String) (index : TLIndex) (_up _to : ℚ)
    (hwf : wfTimeline index.timeline = true) :
    (∀ s ∈ getSegments repId index _up _to,
       s.id = (repId, s.time) ∧
       (∀ dd, s.duration = some dd →
         _up * index.timescale - index.presentationTimeOffset -
             maxEntryDuration index.timeline ≤ s.time ∧
           s.time < _to * index.timescale - index.presentationTimeOffset)) ∧
    List.Chain' (· < ·) ((getSegments repId index _up _to).map Seg.time) ∧
    ((getSegments repId index _up _to).map Seg.id).Nodup := by
  have hwfd := wfTimeline_drop index.timeline
    (getSegmentIndex index
      (_up * index.timescale - index.presentationTimeOffset)) hwf
  unfold getSegments normalizeRange
  simp only
  have hmem : ∀ s ∈ segLoop repId index.timescale
      (_up * index.timescale - index.presentationTimeOffset)
      (_to * index.timescale - index.presentationTimeOffset)
      (index.timeline.drop (getSegmentIndex index
        (_up * index.timescale - index.presentationTimeOffset)))
      (match index.timeline with | [] => 0 | e :: _ => e.d)
      ((match index.startNumber with | none => 0 | some n => n) - 1),
      s.id = (repId, s.time) ∧
      (∀ dd, s.duration = some dd →
        _up * index.timescale - index.presentationTimeOffset -
            maxEntryDuration index.timeline ≤ s.time ∧
          s.time < _to * index.timescale - index.presentationTimeOffset) := by
    intro s hs
    obtain ⟨hid, hh, hdur⟩ := segLoop_mem repId index.timescale _ _ _ _ _
      hwfd s hs
    refine ⟨hid, ?_⟩
    intro dd hdd
    obtain ⟨hlt, e, hemem, hdde, hdp, hbound⟩ := hdur dd hdd
    have hmemtl : e ∈ index.timeline := List.drop_subset _ _ hemem
    have hmax := maxEntryDuration_mem index.timeline e hmemtl
    exact ⟨by linarith, hlt⟩
  have hchain := segLoop_chain repId index.timescale
    (_up * index.timescale - index.presentationTimeOffset)
    (_to * index.timescale - index.presentationTimeOffset)
    (index.timeline.drop (getSegmentIndex index
      (_up * index.timescale - index.presentationTimeOffset)))
    (match index.timeline with | [] => 0 | e :: _ => e.d)
    ((match index.startNumber with | none => 0 | some n => n) - 1) hwfd
  refine ⟨hmem, hchain, ?_⟩
  have hpw : List.Pairwise (fun a b : Seg => a.time < b.time)
      (segLoop repId index.timescale
        (_up * index.timescale - index.presentationTimeOffset)
        (_to * index.timescale - index.presentationTimeOffset)
        (index.timeline.drop (getSegmentIndex index
          (_up * index.timescale - index.presentationTimeOffset)))
        (match index.timeline with | [] => 0 | e :: _ => e.d)
        ((match index.startNumber with | none => 0 | some n => n) - 1)) :=
    List.pairwise_map.mp (List.chain'_iff_pairwise.mp hchain)
  have hpid : List.Pairwise (fun a b : Seg => a.id ≠ b.id)
      (segLoop repId index.timescale
        (_up * index.timescale - index.presentationTimeOffset)
        (_to * index.timescale - index.presentationTimeOffset)
        (index.timeline.drop (getSegmentIndex index
          (_up * index.timescale - index.presentationTimeOffset)))
        (match index.timeline with | [] => 0 | e :: _ => e.d)
        ((match index.startNumber with | none => 0 | some n => n) - 1)) := by
    refine List.Pairwise.imp_of_mem ?_ hpw
    intro a b ha hb hab hcon
    obtain ⟨hida, -⟩ := hmem a ha
    obtain ⟨hidb, -⟩ := hmem b hb
    rw [hida, hidb] at hcon
    exact absurd (congrArg Prod.snd hcon) (ne_of_lt hab)
  exact List.Pairwise.map _ (fun a b h => h) hpid

/-- C3 (counterexample): on the wellformed single-entry open-ended timeline
`[{ts 0, d -1, r 0}]` (timescale 1), `getSegments` over `[1000, 2000)`
returns the open-ended reference at time `0`, far outside the claim's window
`[1000 − maxD, 2000)` — `maxD` here being `-1`, and no non-negative reading
of `maxD` rescues `0 ≥ 1000 − maxD`. -/
theorem getSegments_window_cx :
    wfTimeline [⟨0, -1, 0⟩] = true ∧
    (getSegments "rep" ⟨[⟨0, -1, 0⟩], 1, 0, none⟩ 1000 2000).map Seg.time =
      [0] ∧
    maxEntryDuration [⟨0, -1, 0⟩] = -1 ∧
    ¬ ((1000 : ℚ) * 1 - 0 - (-1) ≤ 0) := by
  with_unfolding_all decide

/-- Witness for C3's theorem: on the timeline `[{0,2,1},{4,2,0}]` with
bounds `[1, 5)` the returned times are strictly ascending. -/
theorem getSegments_props_witness :
    List.Chain' (· < ·)
      ((getSegments "rep" ⟨[⟨0, 2, 1⟩, ⟨4, 2, 0⟩], 1, 0, none⟩ 1 5).map
        Seg.time) :=
  (getSegments_props "rep" ⟨[⟨0, 2, 1⟩, ⟨4, 2, 0⟩], 1, 0, none⟩ 1 5
    (by with_unfolding_all decide)).2.1

end RxPlayer
